import Mathlib

/-!
# Verification of the RecoveryOS RAG store (`rag.py`)

Shallow embedding of the retrieval-augmented-generation store implemented in
`rag.py`: the text chunker, the persistence layer (store files and manifest),
the embedding normalization, and the retrieval engine with its optional
Maximal Marginal Relevance re-ranking.

Modelling conventions:
* Python strings are modelled as `List Char` (with `String` wrappers where the
  public API takes strings); `str.strip` strips the ASCII whitespace
  characters, which is what the repository's data contains.
* Python ints are `Int` (or `Nat` where the source value is provably
  non-negative); Python's clamping slice semantics are modelled explicitly.
* Float values are modelled as exact numbers: the selection and similarity
  arithmetic (products, sums, comparisons) is stated over an arbitrary
  `LinearOrderedField` so that witnesses can be evaluated over `ℚ`, and the
  norm computations (which need square roots) are stated over `ℝ`.
  `int(0.6 * len(window))` is modelled as `(3 * len) / 5` in `Nat`; no theorem
  below depends on the exact value of that threshold.
* The possibly non-terminating chunking loop is given explicit fuel and
  returns `none` when the fuel runs out.
-/

namespace Rag

/-- ASCII whitespace, as stripped by Python's `str.strip()` on ASCII data. -/
def pyIsSpace (c : Char) : Bool :=
  c = ' ' || c = '\t' || c = '\n' || c = '\r' || c = '\x0b' || c = '\x0c'

/-- Python `str.strip()`: remove leading and trailing whitespace. -/
def pyStrip (l : List Char) : List Char :=
  ((l.dropWhile pyIsSpace).reverse.dropWhile pyIsSpace).reverse

/-- Python `str.strip()` on `String`. -/
def pyStripStr (s : String) : List Char :=
  pyStrip s.data

/-- Index of the last occurrence of `c` in `l`, if any. -/
def rlast? (l : List Char) (c : Char) : Option Nat :=
  match l with
  | [] => none
  | a :: rest =>
    match rlast? rest c with
    | some i => some (i + 1)
    | none => if a = c then some 0 else none

/-- Python `str.rfind(c)`: last index of `c`, or `-1` when absent. -/
def pyRfind (l : List Char) (c : Char) : Int :=
  match rlast? l c with
  | none => -1
  | some i => (i : Int)

/-- The body of `_chunk_text`'s `while` loop (rag.py lines 106–121), with
explicit fuel.  State: `start` (character offset) and `acc` (chunks so far).
`none` means the fuel ran out before the loop finished. -/
def chunkLoop (t : List Char) (chunkSize overlap : Nat) :
    Nat → Nat → List (List Char) → Option (List (List Char))
  | 0, _, _ => none
  | fuel + 1, start, acc =>
    if start < t.length then
      -- end = min(len(text), start + chunk_size); window = text[start:end]
      let e := min t.length (start + chunkSize)
      let window := (t.drop start).take (e - start)
      -- break_idx = max(window.rfind("."), window.rfind("\n"))
      let b0 : Int := max (pyRfind window '.') (pyRfind window '\n')
      -- if break_idx < int(0.6 * len(window)): break_idx = len(window)
      let breakIdx : Nat :=
        if b0 < ((3 * window.length) / 5 : Nat) then window.length else b0.toNat
      -- chunk = window[:break_idx].strip(); if chunk: chunks.append(chunk)
      let chunk := pyStrip (window.take breakIdx)
      let acc' := if chunk = [] then acc else acc ++ [chunk]
      -- start = start + break_idx - overlap; if start < 0: start = 0
      -- (Nat truncated subtraction is exactly Python's clamp to 0 here)
      let start' := start + breakIdx - overlap
      -- if start >= len(text): break
      if t.length ≤ start' then some acc'
      else chunkLoop t chunkSize overlap fuel start' acc'
    else some acc

/-- `_chunk_text(text, chunk_size, overlap)` (rag.py lines 96–122), with fuel
for the loop.  `none` means the function does not return within `fuel` loop
iterations. -/
def chunkText (fuel : Nat) (text : List Char) (chunkSize overlap : Nat) :
    Option (List (List Char)) :=
  let t := pyStrip text
  if t = [] then some []
  else if t.length ≤ chunkSize then some [t]
  else chunkLoop t chunkSize overlap fuel 0 []

/-- The 2000-character input `"a" * 2000`: no `'.'` and no `'\n'`. -/
def allA : List Char := List.replicate 2000 'a'

/-! ### C2: what `_save_store` actually does to the filesystem

`_save_store` (rag.py lines 149–155) persists the three store files.  The two
JSON files go through `_atomic_write_json` (write to `<path>.tmp`, then an
atomic `Path.replace`), but the embedding matrix is written by a plain
`np.save(EMBEDDINGS_FILE, ...)`, which opens `embeddings.npy` itself for
writing — truncating it — and writes into it directly.  We model the write
traffic as a list of micro-operations on a small filesystem: a non-atomic
write contributes a `beginWrite` (the file now holds partial data) followed by
an `endWrite` (the file now holds the complete new value); `rename` is a
single atomic step, as POSIX `rename(2)` guarantees. -/

/-- Observable content of one file. -/
inductive FileData (V : Type) where
  | absent
  | truncated
  | complete (v : V)
deriving DecidableEq

/-- Filesystem micro-operations issued by the persistence layer. -/
inductive FsOp (V : Type) where
  | beginWrite (path : String)
  | endWrite (path : String) (v : V)
  | rename (src dst : String)

/-- Effect of one micro-operation on the filesystem. -/
def applyOp {V : Type} (fs : String → FileData V) : FsOp V → (String → FileData V)
  | .beginWrite p => fun x => if x = p then .truncated else fs x
  | .endWrite p v => fun x => if x = p then .complete v else fs x
  | .rename s d => fun x => if x = d then fs s else if x = s then .absent else fs x

/-- Run a sequence of micro-operations. -/
def runOps {V : Type} (fs : String → FileData V) (ops : List (FsOp V)) :
    String → FileData V :=
  ops.foldl applyOp fs

/-- `np.save(path, data)`: a direct, non-atomic write to `path`. -/
def npSaveOps {V : Type} (p : String) (v : V) : List (FsOp V) :=
  [.beginWrite p, .endWrite p v]

/-- `_atomic_write_json(path, data)` (rag.py lines 58–62): write `path + ".tmp"`
non-atomically, then atomically rename it over `path`. -/
def atomicWriteJsonOps {V : Type} (p : String) (v : V) : List (FsOp V) :=
  [.beginWrite (p ++ ".tmp"), .endWrite (p ++ ".tmp") v, .rename (p ++ ".tmp") p]

/-- The micro-operation trace of `_save_store(emb, meta, dim)` (rag.py lines
149–155): `np.save` on the embeddings, `_atomic_write_json` on the metadata,
then `_save_manifest`, which is `_atomic_write_json` on the manifest. -/
def saveStoreOps {V : Type} (embV metaV manV : V) : List (FsOp V) :=
  npSaveOps "embeddings.npy" embV ++
  atomicWriteJsonOps "metadata.json" metaV ++
  atomicWriteJsonOps "manifest.json" manV

/-- A filesystem holding a complete old store. -/
def oldStoreFs {V : Type} (e0 m0 man0 : V) : String → FileData V := fun p =>
  if p = "embeddings.npy" then .complete e0
  else if p = "metadata.json" then .complete m0
  else if p = "manifest.json" then .complete man0
  else .absent

/-! ### Store data model -/

/-- One persisted metadata record (rag.py lines 238–248).  `tags` is stored
verbatim and never interpreted; a string stands in for the JSON value. -/
structure ChunkRecord where
  id : String
  doc_id : String
  title : String
  content : String
  chunk_index : Nat
  source : Option String
  tags : Option String
deriving DecidableEq, Inhabited

/-- The manifest record `{model, dim, count, updated_at}` (rag.py lines 74–81).
`updated_at` is a wall-clock timestamp with no functional role and is not
modelled. -/
structure Manifest where
  model : String
  dim : Nat
  count : Nat
deriving DecidableEq

/-- A 2-D numpy array as stored in a `.npy` file: the header records the
shape `(len rows, cols)`.  The `.npy` format forces every row to hold exactly
`cols` entries; no theorem below depends on that rectangularity, so it is not
carried as an invariant, and `cols` faithfully models the persisted shape
(including the width of a 0-row matrix). -/
structure NpMatrix (K : Type) where
  cols : Nat
  rows : List (List K)

/-- The `(0, dim)`-shaped empty matrix `np.empty((0, dim))`. -/
def emptyMat (K : Type) (dim : Nat) : NpMatrix K :=
  ⟨dim, []⟩

/-- Content of `embeddings.npy` as seen by `np.load`: unreadable
(`np.load` raises), readable but not a 2-D array (`emb.ndim != 2`), or a
proper matrix. -/
inductive NpyVal (K : Type) where
  | corrupt
  | nonMatrix
  | matrix (m : NpMatrix K)

/-- Content of `metadata.json` as seen by `json.loads`: unparseable
(raises) or a list of records. -/
inductive JsonVal where
  | corrupt
  | records (rs : List ChunkRecord)

/-- The three files of the persisted store; `none` means the file is absent. -/
structure StoreFiles (K : Type) where
  embF : Option (NpyVal K)
  metaF : Option JsonVal
  manF : Option Manifest

/-- The store directory with no files in it. -/
def emptyFs (K : Type) : StoreFiles K := ⟨none, none, none⟩

/-- `_ensure_store_shapes(dim)` (rag.py lines 125–146): load the store files
and validate their shapes, falling back to a fresh empty store on any
missing file, load failure, non-2-D array, dimension mismatch, or
length mismatch. -/
def ensureStoreShapes {K : Type} (dim : Nat) (fs : StoreFiles K) :
    NpMatrix K × List ChunkRecord :=
  match fs.embF, fs.metaF with
  | some ev, some mv =>
    match ev, mv with
    | .matrix M, .records R =>
      -- if emb.ndim != 2 or emb.shape[1] != dim: rebuild
      if M.cols ≠ dim then (emptyMat K dim, [])
      -- if len(meta) != emb.shape[0]: rebuild
      else if R.length ≠ M.rows.length then (emptyMat K dim, [])
      else (M, R)
    -- np.load / json.loads raised, or the array is not 2-D: rebuild
    | _, _ => (emptyMat K dim, [])
  -- not (EMBEDDINGS_FILE.exists() and METADATA_FILE.exists())
  | _, _ => (emptyMat K dim, [])

/-! ### Retrieval: similarity, argsort, MMR (exact-arithmetic model of the
float computations; instantiated at `ℚ` for witnesses) -/

variable {K : Type} [LinearOrderedField K]

/-- `np.dot` of two equal-length vectors (all call sites pass matching
lengths). -/
def dot (u v : List K) : K := ((u.zip v).map fun p => p.1 * p.2).sum

/-- `np.clip(x, -1.0, 1.0)`. -/
def clip1 (x : K) : K := min (max x (-1)) 1

/-- Python's clamping slice `l[:k]`: for `k ≥ 0` the first `min k len`
elements, for `k < 0` all but the last `-k` elements. -/
def pyTake {α : Type} (l : List α) (k : Int) : List α :=
  if 0 ≤ k then l.take k.toNat else l.take ((l.length : Int) + k).toNat

/-- Indexing `s[i]` into a score vector (all call sites keep `i` in range). -/
def sGet (s : List K) (i : Nat) : K := s.getD i 0

/-- The total order realised by a stable ascending argsort of `s`: sort by
value, breaking ties by index.  `np.argsort` is modelled as sorting by this
order (numpy guarantees stability for `kind='stable'`; its default kind also
behaves this way on the small inputs used in the theorems below). -/
def idxLe (s : List K) (i j : Nat) : Prop :=
  sGet s i < sGet s j ∨ (sGet s i = sGet s j ∧ i ≤ j)

instance (s : List K) (i j : Nat) : Decidable (idxLe s i j) := by
  unfold idxLe; infer_instance

/-- Insert index `i` into an `idxLe`-sorted list of indices. -/
def insIdx (s : List K) (i : Nat) : List Nat → List Nat
  | [] => [i]
  | j :: rest => if idxLe s i j then i :: j :: rest else j :: insIdx s i rest

/-- `np.argsort(s)` (stable ascending). -/
def argsortAsc (s : List K) : List Nat :=
  (List.range s.length).foldr (insIdx s) []

/-- `np.dot(doc_vecs, query_vec)`: one relevance/similarity score per stored
row (rag.py lines 183 and 314). -/
def relScores (q : List K) (docs : List (List K)) : List K :=
  docs.map fun d => dot d q

/-- Scan state for `np.argmax`: `(best index, best value)` against the
remaining elements, which start at position `i`. -/
def npArgmaxAux : List K → Nat → Nat × K → Nat × K
  | [], _, bv => bv
  | x :: xs, i, (b, v) => if v < x then npArgmaxAux xs (i + 1) (i, x) else npArgmaxAux xs (i + 1) (b, v)

/-- `np.argmax(l)`: first index attaining the maximum (0 for the empty
array, which raises in numpy and is never reached here). -/
def npArgmax (l : List K) : Nat :=
  match l with
  | [] => 0
  | x :: xs => (npArgmaxAux xs 1 (0, x)).1

/-- `np.max` of a vector (0 for the empty array, which raises in numpy and is
never reached here). -/
def listMax : List K → K
  | [] => 0
  | x :: xs => xs.foldl max x

/-- The doc–doc similarity matrix `doc_sim = np.clip(doc_vecs @ doc_vecs.T,
-1.0, 1.0)` (rag.py line 188). -/
def docSimF (docs : List (List K)) (i j : Nat) : K :=
  clip1 (dot (docs.getD i []) (docs.getD j []))

/-- The MMR score of candidate `c` against the already selected indices
(rag.py lines 197–199): `λ·rel[c] − (1−λ)·max_j doc_sim[c, j]`. -/
def mmrScore (lam : K) (rel : List K) (dSim : Nat → Nat → K) (sel : List Nat) (c : Nat) : K :=
  lam * sGet rel c - (1 - lam) * listMax (sel.map fun j => dSim c j)

/-- The selection loop of `_mmr` (rag.py lines 190–203).  The candidate set
(a Python `set` of small ints, iterated in ascending order) is an ascending
duplicate-free list.  The `cands = []` fallback mirrors the `np.max` of an
empty selection raising: it is unreachable because the loop runs at most
`min top_k N` times (proved below). -/
def mmrLoop (lam : K) (rel : List K) (dSim : Nat → Nat → K) :
    Nat → List Nat → List Nat → List Nat
  | 0, sel, _ => sel
  | n + 1, sel, cands =>
    if sel = [] then
      mmrLoop lam rel dSim n (sel ++ [npArgmax rel]) (cands.erase (npArgmax rel))
    else if cands = [] then sel
    else
      mmrLoop lam rel dSim n
        (sel ++ [cands.getD (npArgmax (cands.map (mmrScore lam rel dSim sel))) 0])
        (cands.erase (cands.getD (npArgmax (cands.map (mmrScore lam rel dSim sel))) 0))

/-- `_mmr(query_vec, doc_vecs, top_k, lambda_mult)` (rag.py lines 167–204). -/
def mmr (q : List K) (docs : List (List K)) (topK : Nat) (lam : K) : List Nat :=
  if docs.length = 0 then []
  else mmrLoop lam (relScores q docs) (docSimF docs) (min topK docs.length) [] (List.range docs.length)

/-- The index-selection step of `retrieve` (rag.py lines 316–319). -/
def selectIndices (q : List K) (emb : List (List K)) (k : Int) (useMmr : Bool) : List Nat :=
  if useMmr = true ∧ 1 < k ∧ k < (emb.length : Int) then mmr q emb k.toNat (7 / 10)
  else pyTake (argsortAsc (relScores q emb)).reverse k

/-- One retrieval result: a copy of the chunk record plus the numeric score
(rag.py lines 326–328). -/
structure RagResult (K : Type) where
  record : ChunkRecord
  score : K

/-- The result-building loop of `retrieve` (rag.py lines 321–328): clip each
selected score, drop results under `min_score`, attach the record. -/
def scoreFilter (sims : List K) (meta : List ChunkRecord) (minScore : K) (idxs : List Nat) :
    List (RagResult K) :=
  idxs.filterMap fun i =>
    if clip1 (sGet sims i) < minScore then none
    else some ⟨meta.getD i default, clip1 (sGet sims i)⟩

/-- The scoring-and-selection part of `retrieve` (rag.py lines 313–328),
given the encoded query vector `q` and the validated store `(emb, meta)`. -/
def retrieveFrom (q : List K) (emb : List (List K)) (meta : List ChunkRecord)
    (k : Int) (minScore : K) (useMmr : Bool) : List (RagResult K) :=
  scoreFilter (relScores q emb) meta minScore (selectIndices q emb k useMmr)

/-- Concrete records for counterexamples and witnesses. -/
def recA : ChunkRecord := ⟨"A", "A", "t", "c", 0, none, none⟩
def recB : ChunkRecord := ⟨"B", "B", "t", "c", 0, none, none⟩

/-- A concrete three-document store for the C7 witness. -/
def embW : List (List ℚ) := [[1, 0], [0, 1], [1, 0]]

/-! ### Embedding normalization (`_normalize`, `_encode_texts`) over `ℝ`

The float arithmetic is modelled exactly over the reals; `1e-12` is the exact
rational `1 / 10 ^ 12`. -/

/-- Euclidean norm of one row (`np.linalg.norm(mat, axis=1)`). -/
noncomputable def l2norm (v : List ℝ) : ℝ :=
  Real.sqrt ((v.map fun x => x ^ 2).sum)

/-- `_normalize` (rag.py lines 90–93) on one row: divide by the norm plus
`1e-12` (the division-by-zero guard). -/
noncomputable def normalizeRow (v : List ℝ) : List ℝ :=
  v.map fun x => x / (l2norm v + 1 / 10 ^ 12)

/-- `_normalize` on the whole batch. -/
noncomputable def normalize (m : List (List ℝ)) : List (List ℝ) :=
  m.map normalizeRow

/-- `_encode_texts(texts)` (rag.py lines 158–164) with the embedding model as
an explicit provider function `P`: build the `(M, d)` float array of raw model
vectors, then L2-normalize each row.  `none` models the numpy exceptions: an
empty batch gives a shape-`(0,)` array (axis-1 reductions raise) and a ragged
batch makes `np.array(..., dtype=float32)` raise. -/
noncomputable def encodeTexts (P : List String → List (List ℝ)) (texts : List String) :
    Option (NpMatrix ℝ) :=
  match P texts with
  | [] => none
  | r0 :: rest =>
    if ∀ r ∈ r0 :: rest, r.length = r0.length then
      some ⟨r0.length, normalize (r0 :: rest)⟩
    else none

/-- A provider returning one fixed raw vector `(3, 4)` (norm 5). -/
def wP : List String → List (List ℝ) := fun _ => [[3, 4]]

/-- The matrix `_encode_texts` builds from `wP` on one text. -/
noncomputable def wM : NpMatrix ℝ := ⟨2, normalize [[3, 4]]⟩

/-! ### Ingestion (`ingest_documents`), persistence (`_save_store`),
`clear_store`, and the public `retrieve` -/

/-- A caller-supplied document.  Python's falsy test `doc.get("id") or ...`
collapses a missing and an empty string, so absent optional strings are
modelled as `""`. -/
structure Doc where
  id : String
  title : String
  content : String
  source : Option String
  tags : Option String
deriving DecidableEq

/-- The records built for one document's chunks (rag.py lines 236–248):
`doc_id#i` when the document splits into more than one chunk, bare `doc_id`
otherwise. -/
def mkRecords (docId title : String) (src tags : Option String)
    (chunks : List (List Char)) : List ChunkRecord :=
  (List.range chunks.length).map fun i =>
    { id := if chunks.length > 1 then docId ++ "#" ++ toString i else docId
      doc_id := docId
      title := title
      content := String.mk (chunks.getD i [])
      chunk_index := i
      source := src
      tags := tags }

/-- The corpus-building loop of `ingest_documents` (rag.py lines 226–248):
collect chunk texts and metadata records, skipping documents with empty
content.  `metaLen` is `len(meta)` of the loaded store (used for generated
ids); `none` propagates a non-terminating `_chunk_text` call. -/
def buildCorpus (fuel : Nat) (chunk : Bool) (metaLen : Nat) :
    List Doc → List String × List ChunkRecord → Option (List String × List ChunkRecord)
  | [], acc => some acc
  | d :: rest, (texts, newMeta) =>
    let docId := if d.id = "" then "doc-" ++ toString (metaLen + newMeta.length) else d.id
    let title := if d.title = "" then "Untitled" else d.title
    let content := pyStrip d.content.data
    if content = [] then buildCorpus fuel chunk metaLen rest (texts, newMeta)
    else
      match (if chunk then chunkText fuel content 700 120 else some [content]) with
      | none => none
      | some chunks =>
        buildCorpus fuel chunk metaLen rest
          (texts ++ chunks.map String.mk,
            newMeta ++ mkRecords docId title d.source d.tags chunks)

/-- The default embedding model name (`RAG_MODEL`). -/
def ragModelName : String := "all-MiniLM-L6-v2"

/-- `_save_store(emb, meta, dim)` (rag.py lines 149–155) as a state update:
the `assert emb.shape[0] == len(meta)` aborts the save (`none`) when the
shapes disagree; otherwise all three files are written, the manifest holding
`{model, dim, count = emb.shape[0]}`. -/
def saveStoreChecked (emb : NpMatrix ℝ) (meta : List ChunkRecord) (dim : Nat) :
    Option (StoreFiles ℝ) :=
  if emb.rows.length = meta.length then
    some ⟨some (NpyVal.matrix emb), some (JsonVal.records meta),
      some ⟨ragModelName, dim, emb.rows.length⟩⟩
  else none

/-- `ingest_documents(documents, chunk=...)` (rag.py lines 210–276) with the
embedding model as provider `P` and its probed dimension `dim` (`_DIM or
384`).  `none` models the run raising: a diverging `_chunk_text`, a numpy
error in `_encode_texts`, or the save assert. -/
noncomputable def ingest (P : List String → List (List ℝ)) (dim : Nat) (docs : List Doc)
    (chunk : Bool) (fuel : Nat) (fs : StoreFiles ℝ) : Option (StoreFiles ℝ) :=
  if docs = [] then some fs
  else
    match buildCorpus fuel chunk (ensureStoreShapes dim fs).2.length docs ([], []) with
    | none => none
    | some (texts, newMeta) =>
      if texts = [] then some fs
      else
        match encodeTexts P texts with
        | none => none
        | some NV =>
          if NV.cols ≠ dim then
            -- "Model dim changed mid-run; rebuilding store from new batch."
            saveStoreChecked NV newMeta NV.cols
          else
            -- emb = np.vstack([emb, new_vecs]) if emb.size else new_vecs
            saveStoreChecked ⟨dim, (ensureStoreShapes dim fs).1.rows ++ NV.rows⟩
              ((ensureStoreShapes dim fs).2 ++ newMeta) dim

/-- `clear_store()` (rag.py lines 348–354): unlink whichever of the three
files exist; always succeeds and leaves no files. -/
def clearStore {K : Type} (_fs : StoreFiles K) : StoreFiles K := emptyFs K

/-- Row count of the persisted embedding matrix (0 when absent/unreadable). -/
def storedRows (fs : StoreFiles ℝ) : Nat :=
  match fs.embF with
  | some (NpyVal.matrix M) => M.rows.length
  | _ => 0

/-- The persisted rows themselves. -/
def storedRowsList (fs : StoreFiles ℝ) : List (List ℝ) :=
  match fs.embF with
  | some (NpyVal.matrix M) => M.rows
  | _ => []

/-- Length of the persisted record list (0 when absent/unreadable). -/
def storedMeta (fs : StoreFiles ℝ) : Nat :=
  match fs.metaF with
  | some (JsonVal.records R) => R.length
  | _ => 0

/-- The persisted manifest's `count` (0 when absent). -/
def manifestCount (fs : StoreFiles ℝ) : Nat :=
  match fs.manF with
  | some m => m.count
  | _ => 0

/-- Store states reachable through the public mutating API, starting from the
empty directory. -/
inductive Reachable : StoreFiles ℝ → Prop
  | init : Reachable (emptyFs ℝ)
  | ingest_step (P : List String → List (List ℝ)) (dim : Nat) (docs : List Doc)
      (chunk : Bool) (fuel : Nat) (fs fs' : StoreFiles ℝ) :
      Reachable fs → ingest P dim docs chunk fuel fs = some fs' → Reachable fs'
  | clear_step (fs : StoreFiles ℝ) : Reachable fs → Reachable (clearStore fs)

/-- Result of the public `retrieve`, instrumented with effect flags:
`readStore` records whether the persisted store files were read (rag.py lines
302–304) and `encodedQuery` whether `_encode_texts` ran on the query (line
311). -/
structure RetrieveOut where
  results : List (RagResult ℝ)
  readStore : Bool
  encodedQuery : Bool

/-- `retrieve(query, k, min_score=..., use_mmr=...)` (rag.py lines 279–342)
with the embedding model as provider `P` and its dimension `dim`.  The
`try/except` around the body turns every modelled numpy/JSON exception into an
empty result list. -/
noncomputable def retrieve (P : List String → List (List ℝ)) (dim : Nat)
    (fs : StoreFiles ℝ) (query : String) (k : Int) (minScore : ℝ) (useMmr : Bool) :
    RetrieveOut :=
  -- if not query or not query.strip(): return []
  if pyStripStr query = [] then ⟨[], false, false⟩
  -- if not EMBEDDINGS_FILE.exists() or not METADATA_FILE.exists(): return []
  else if fs.embF.isNone || fs.metaF.isNone then ⟨[], false, false⟩
  else
    match fs.embF, fs.metaF with
    | some (NpyVal.matrix M), some (JsonVal.records meta) =>
      -- if emb.ndim != 2 or emb.shape[1] != dim or len(meta) != emb.shape[0]: return []
      if M.cols ≠ dim ∨ meta.length ≠ M.rows.length then ⟨[], true, false⟩
      else
        match encodeTexts P [query] with
        | none => ⟨[], true, true⟩        -- numpy raised; caught: []
        | some QV =>
          -- np.dot raises on a dimension mismatch; caught: []
          if (QV.rows.getD 0 []).length ≠ M.cols then ⟨[], true, true⟩
          else ⟨retrieveFrom (QV.rows.getD 0 []) M.rows meta k minScore useMmr, true, true⟩
    -- np.load / json.loads raised, or the array is not 2-D; caught: []
    | _, _ => ⟨[], true, false⟩

/-- A provider that returns the zero vector for every text. -/
def zeroP : List String → List (List ℝ) := fun _ => [[0, 0]]

/-- A single document with non-empty content. -/
def docX : Doc := ⟨"kb", "t", "x", none, none⟩

/-! ## Theorems -/

/-! ### C1: termination of `_chunk_text` -/

theorem rlast?_replicate_a {c : Char} (h : c ≠ 'a') (n : Nat) :
    rlast? (List.replicate n 'a') c = none := by
  induction n with
  | zero => rfl
  | succ n ih =>
    rw [List.replicate_succ, rlast?, ih]
    simp [h.symm]

theorem pyRfind_replicate_dot (n : Nat) : pyRfind (List.replicate n 'a') '.' = -1 := by
  rw [pyRfind, rlast?_replicate_a (by decide) n]

theorem pyRfind_replicate_nl (n : Nat) : pyRfind (List.replicate n 'a') '\n' = -1 := by
  rw [pyRfind, rlast?_replicate_a (by decide) n]

theorem dropWhile_space_replicate_a (n : Nat) :
    List.dropWhile pyIsSpace (List.replicate n 'a') = List.replicate n 'a' := by
  cases n with
  | zero => rfl
  | succ n =>
    rw [List.replicate_succ, List.dropWhile_cons]
    have h : pyIsSpace 'a' = false := by decide
    rw [h]
    simp only [Bool.false_eq_true, if_false]

theorem pyStrip_replicate_a (n : Nat) :
    pyStrip (List.replicate n 'a') = List.replicate n 'a' := by
  rw [pyStrip, dropWhile_space_replicate_a, List.reverse_replicate,
    dropWhile_space_replicate_a, List.reverse_replicate]

/-- One iteration of `_chunk_text`'s loop on the all-`'a'` input: no break
character is found, so the whole window is kept and the cursor advances by
`window length - overlap`. -/
theorem chunkLoop_allA_step (fuel : Nat) (start : Nat) (acc : List (List Char))
    (h : start < 2000) :
    chunkLoop allA 700 120 (fuel + 1) start acc =
      (if 2000 ≤ start + (min 2000 (start + 700) - start) - 120 then
        some (acc ++ [List.replicate (min 2000 (start + 700) - start) 'a'])
      else chunkLoop allA 700 120 fuel (start + (min 2000 (start + 700) - start) - 120)
        (acc ++ [List.replicate (min 2000 (start + 700) - start) 'a'])) := by
  have hlen : allA.length = 2000 := by rw [allA, List.length_replicate]
  have hdrop : allA.drop start = List.replicate (2000 - start) 'a' := by
    rw [allA, List.drop_replicate]
  have hmin : min (min 2000 (start + 700) - start) (2000 - start) =
      min 2000 (start + 700) - start := by omega
  have hrep : List.replicate (min 2000 (start + 700) - start) 'a' ≠ [] := by
    rw [Ne, List.replicate_eq_nil_iff]
    omega
  have hthr : ((-1 : Int) < ((3 * (min 2000 (start + 700) - start)) / 5 : Nat)) := by
    omega
  simp only [chunkLoop, hlen, hdrop, if_pos h, List.take_replicate, hmin,
    pyRfind_replicate_dot, pyRfind_replicate_nl, max_self, List.length_replicate,
    pyStrip_replicate_a, min_self, if_pos hthr, if_neg hrep]

/-- From offset 1880 the loop never advances: the final 120-character window
has `break_idx = 120 = overlap`, so `start` stays 1880 forever. -/
theorem chunkLoop_allA_1880 (fuel : Nat) (acc : List (List Char)) :
    chunkLoop allA 700 120 fuel 1880 acc = none := by
  induction fuel generalizing acc with
  | zero => rfl
  | succ fuel ih =>
    rw [chunkLoop_allA_step fuel 1880 acc (by norm_num)]
    norm_num
    exact ih _

theorem chunkLoop_allA_1740 (fuel : Nat) (acc : List (List Char)) :
    chunkLoop allA 700 120 fuel 1740 acc = none := by
  cases fuel with
  | zero => rfl
  | succ fuel =>
    rw [chunkLoop_allA_step fuel 1740 acc (by norm_num)]
    norm_num
    exact chunkLoop_allA_1880 _ _

theorem chunkLoop_allA_1160 (fuel : Nat) (acc : List (List Char)) :
    chunkLoop allA 700 120 fuel 1160 acc = none := by
  cases fuel with
  | zero => rfl
  | succ fuel =>
    rw [chunkLoop_allA_step fuel 1160 acc (by norm_num)]
    norm_num
    exact chunkLoop_allA_1740 _ _

theorem chunkLoop_allA_580 (fuel : Nat) (acc : List (List Char)) :
    chunkLoop allA 700 120 fuel 580 acc = none := by
  cases fuel with
  | zero => rfl
  | succ fuel =>
    rw [chunkLoop_allA_step fuel 580 acc (by norm_num)]
    norm_num
    exact chunkLoop_allA_1160 _ _

theorem chunkLoop_allA_0 (fuel : Nat) (acc : List (List Char)) :
    chunkLoop allA 700 120 fuel 0 acc = none := by
  cases fuel with
  | zero => rfl
  | succ fuel =>
    rw [chunkLoop_allA_step fuel 0 acc (by norm_num)]
    norm_num
    exact chunkLoop_allA_580 _ _

/-- C1: the claim says `_chunk_text(text, 700, 120)` terminates on every input
and in particular returns covering chunks on every 2000-character input.  It
does not: on the 2000-character input `"a" * 2000` (no sentence terminator and
no newline anywhere) the loop's cursor follows 0 → 580 → 1160 → 1740 → 1880
and then stays at 1880 forever, because the final window is 120 characters
long, so `break_idx = 120` exactly cancels `overlap = 120`.  Formally: for
every amount of fuel the loop fails to finish (and each wasted iteration
appends the same 120-character chunk again). -/
theorem chunk_text_diverges_on_2000_char_input (fuel : Nat) :
    chunkText fuel allA 700 120 = none := by
  have hne : allA ≠ [] := by
    rw [allA, Ne, List.replicate_eq_nil_iff]
    norm_num
  have hlen : allA.length = 2000 := by rw [allA, List.length_replicate]
  have hstrip : pyStrip allA = allA := by rw [allA]; exact pyStrip_replicate_a 2000
  simp only [chunkText, hstrip, if_neg hne, hlen]
  norm_num
  exact chunkLoop_allA_0 fuel []

/-- C2 (refuting evaluation): the claim says both the embedding matrix and the
record list are written to temporary files and atomically renamed into place,
so a failure mid-save leaves either the complete old store or the complete new
store visible.  The code's own comment ("Persist embeddings and metadata
atomically") promises the same.  But `np.save` writes `embeddings.npy` in
place: if the save is interrupted after the write begins (after the first
micro-operation of the trace), a reader sees `embeddings.npy` truncated —
neither the old content `0` nor the new content `1`. -/
theorem save_store_embeddings_write_not_atomic :
    runOps (oldStoreFs (0 : Nat) 0 0) ((saveStoreOps (1 : Nat) 1 1).take 1)
        "embeddings.npy" = FileData.truncated ∧
    FileData.truncated ≠ FileData.complete (0 : Nat) ∧
    FileData.truncated ≠ FileData.complete (1 : Nat) := by
  refine ⟨rfl, ?_, ?_⟩ <;> intro h <;> cases h

/-- C5: store loading with an expected dimension.  Every outcome is either
the fresh empty store of width `expected_dim` or the fully validated persisted
store (matching width, aligned lengths) — never a partially-valid or
dimension-mismatched store; and each failure case listed by the claim
(missing files, column mismatch, length mismatch, parse failure) yields the
empty store. -/
theorem ensure_store_shapes_validates {K : Type} (dim : Nat) (fs : StoreFiles K) :
    (ensureStoreShapes dim fs = (emptyMat K dim, []) ∨
      (∃ M R, fs.embF = some (NpyVal.matrix M) ∧ fs.metaF = some (JsonVal.records R) ∧
        M.cols = dim ∧ R.length = M.rows.length ∧ ensureStoreShapes dim fs = (M, R))) ∧
    ((fs.embF = none ∨ fs.metaF = none) →
      ensureStoreShapes dim fs = (emptyMat K dim, [])) ∧
    (∀ M, fs.embF = some (NpyVal.matrix M) → M.cols ≠ dim →
      ensureStoreShapes dim fs = (emptyMat K dim, [])) ∧
    (∀ M R, fs.embF = some (NpyVal.matrix M) → fs.metaF = some (JsonVal.records R) →
      R.length ≠ M.rows.length → ensureStoreShapes dim fs = (emptyMat K dim, [])) ∧
    ((fs.embF = some NpyVal.corrupt ∨ fs.metaF = some JsonVal.corrupt) →
      ensureStoreShapes dim fs = (emptyMat K dim, [])) ∧
    (emptyMat K dim).cols = dim := by
  obtain ⟨e, m, man⟩ := fs
  refine ⟨?_, ?_, ?_, ?_, ?_, rfl⟩
  · cases e with
    | none => exact Or.inl rfl
    | some ev =>
      cases m with
      | none => cases ev <;> exact Or.inl rfl
      | some mv =>
        cases ev with
        | corrupt => cases mv <;> exact Or.inl rfl
        | nonMatrix => cases mv <;> exact Or.inl rfl
        | matrix M =>
          cases mv with
          | corrupt => exact Or.inl rfl
          | records R =>
            by_cases h1 : M.cols = dim
            · by_cases h2 : R.length = M.rows.length
              · refine Or.inr ⟨M, R, rfl, rfl, h1, h2, ?_⟩
                simp [ensureStoreShapes, h1, h2]
              · exact Or.inl (by simp [ensureStoreShapes, h2])
            · exact Or.inl (by simp [ensureStoreShapes, h1])
  · rintro (h | h) <;> simp_all <;> cases e <;> cases m <;> rfl
  · rintro M rfl h1
    cases m with
    | none => rfl
    | some mv => cases mv <;> simp [ensureStoreShapes, h1]
  · rintro M R rfl rfl h2
    by_cases h1 : M.cols = dim <;> simp [ensureStoreShapes, h1, h2]
  · rintro (h | h)
    · subst h
      cases m with
      | none => rfl
      | some mv => cases mv <;> rfl
    · subst h
      cases e with
      | none => rfl
      | some ev => cases ev <;> rfl

/-- C5 witness: the theorem applied at concrete stores — missing files, a
2-column store loaded with expected dimension 3, an aligned-length violation,
and an unreadable embeddings file all yield the empty store of the expected
width. -/
theorem ensure_store_shapes_validates_witness :
    ensureStoreShapes 3 (emptyFs ℚ) = (emptyMat ℚ 3, []) ∧
    ensureStoreShapes 3
      (⟨some (NpyVal.matrix ⟨2, []⟩),
        some (JsonVal.records []), none⟩ : StoreFiles ℚ) = (emptyMat ℚ 3, []) ∧
    ensureStoreShapes 3
      (⟨some (NpyVal.matrix ⟨3, [[1, 2, 3]]⟩),
        some (JsonVal.records []), none⟩ : StoreFiles ℚ) = (emptyMat ℚ 3, []) ∧
    ensureStoreShapes 3
      (⟨some NpyVal.corrupt, some (JsonVal.records []), none⟩ : StoreFiles ℚ) =
      (emptyMat ℚ 3, []) := by
  refine ⟨?_, ?_, ?_, ?_⟩
  · exact (ensure_store_shapes_validates 3 (emptyFs ℚ)).2.1 (Or.inl rfl)
  · exact (ensure_store_shapes_validates 3 _).2.2.1 _ rfl (by norm_num)
  · exact (ensure_store_shapes_validates 3 _).2.2.2.1 _ _ rfl rfl (by norm_num)
  · exact (ensure_store_shapes_validates 3 _).2.2.2.2.1 (Or.inl rfl)

/-! ### Properties of the argsort model -/

theorem idxLe_total (s : List K) (i j : Nat) : idxLe s i j ∨ idxLe s j i := by
  rcases lt_trichotomy (sGet s i) (sGet s j) with h | h | h
  · exact Or.inl (Or.inl h)
  · rcases Nat.le_total i j with hij | hij
    · exact Or.inl (Or.inr ⟨h, hij⟩)
    · exact Or.inr (Or.inr ⟨h.symm, hij⟩)
  · exact Or.inr (Or.inl h)

theorem idxLe_trans (s : List K) {i j k : Nat} (h1 : idxLe s i j) (h2 : idxLe s j k) :
    idxLe s i k := by
  rcases h1 with h1 | ⟨h1, h1'⟩ <;> rcases h2 with h2 | ⟨h2, h2'⟩
  · exact Or.inl (h1.trans h2)
  · exact Or.inl (h2 ▸ h1)
  · exact Or.inl (h1 ▸ h2)
  · exact Or.inr ⟨h1.trans h2, h1'.trans h2'⟩

theorem insIdx_perm (s : List K) (i : Nat) (l : List Nat) :
    List.Perm (insIdx s i l) (i :: l) := by
  induction l with
  | nil => rfl
  | cons j rest ih =>
    rw [insIdx]
    split
    · rfl
    · exact (List.Perm.cons j ih).trans (List.Perm.swap i j rest)

theorem mem_insIdx (s : List K) (i x : Nat) (l : List Nat) :
    x ∈ insIdx s i l ↔ x = i ∨ x ∈ l := by
  rw [(insIdx_perm s i l).mem_iff, List.mem_cons]

theorem insIdx_pairwise (s : List K) (i : Nat) {l : List Nat}
    (h : l.Pairwise (idxLe s)) : (insIdx s i l).Pairwise (idxLe s) := by
  induction l with
  | nil => exact List.pairwise_singleton _ _
  | cons j rest ih =>
    rw [insIdx]
    rcases List.pairwise_cons.mp h with ⟨hj, hrest⟩
    split
    · rename_i hij
      refine List.pairwise_cons.mpr ⟨?_, h⟩
      intro x hx
      rcases List.mem_cons.mp hx with rfl | hx
      · exact hij
      · exact idxLe_trans s hij (hj x hx)
    · rename_i hij
      rcases (idxLe_total s i j).resolve_left hij with hji
      refine List.pairwise_cons.mpr ⟨?_, ih hrest⟩
      intro x hx
      rcases (mem_insIdx s i x rest).mp hx with rfl | hx
      · exact hji
      · exact hj x hx

theorem foldr_insIdx_perm (s : List K) (l : List Nat) :
    List.Perm (l.foldr (insIdx s) []) l := by
  induction l with
  | nil => rfl
  | cons j rest ih =>
    exact (insIdx_perm s j _).trans (List.Perm.cons j ih)

theorem foldr_insIdx_pairwise (s : List K) (l : List Nat) :
    (l.foldr (insIdx s) []).Pairwise (idxLe s) := by
  induction l with
  | nil => exact List.Pairwise.nil
  | cons j rest ih => exact insIdx_pairwise s j ih

theorem argsortAsc_perm (s : List K) : List.Perm (argsortAsc s) (List.range s.length) :=
  foldr_insIdx_perm s _

theorem argsortAsc_pairwise (s : List K) : (argsortAsc s).Pairwise (idxLe s) :=
  foldr_insIdx_pairwise s _

theorem argsortAsc_length (s : List K) : (argsortAsc s).length = s.length := by
  rw [(argsortAsc_perm s).length_eq, List.length_range]

theorem argsortAsc_nodup (s : List K) : (argsortAsc s).Nodup :=
  (argsortAsc_perm s).nodup_iff.mpr (List.nodup_range s.length)

/-- The reversed argsort is strictly descending in the lexicographic
(score, index) order. -/
theorem argsortAsc_reverse_sorted (s : List K) :
    (argsortAsc s).reverse.Pairwise (fun i j =>
      sGet s j < sGet s i ∨ (sGet s j = sGet s i ∧ j < i)) := by
  have h1 : (argsortAsc s).reverse.Pairwise (fun i j => idxLe s j i) :=
    List.pairwise_reverse.mpr (argsortAsc_pairwise s)
  have h2 : (argsortAsc s).reverse.Pairwise (fun i j => i ≠ j) :=
    List.nodup_reverse.mpr (argsortAsc_nodup s)
  refine (h1.and h2).imp ?_
  rintro i j ⟨hle | ⟨heq, hji⟩, hne⟩
  · exact Or.inl hle
  · exact Or.inr ⟨heq, lt_of_le_of_ne hji (fun h => hne h.symm)⟩

theorem clip1_mono {a b : K} (h : a ≤ b) : clip1 a ≤ clip1 b :=
  min_le_min (max_le_max h le_rfl) le_rfl

theorem pairwise_filterMap_of_pairwise {α β : Type} {R : α → α → Prop} {S : β → β → Prop}
    (f : α → Option β) {l : List α} (h : l.Pairwise R)
    (hf : ∀ a b x y, R a b → f a = some x → f b = some y → S x y) :
    (l.filterMap f).Pairwise S := by
  induction l with
  | nil => exact List.Pairwise.nil
  | cons a rest ih =>
    rcases List.pairwise_cons.mp h with ⟨ha, hrest⟩
    rw [List.filterMap_cons]
    cases hfa : f a with
    | none => exact ih hrest
    | some x =>
      refine List.pairwise_cons.mpr ⟨?_, ih hrest⟩
      intro y hy
      rcases List.mem_filterMap.mp hy with ⟨b, hb, hfb⟩
      exact hf a b x y (ha b hb) hfa hfb

/-- C4 (amended): when `retrieve` runs without MMR (`use_mmr` false, or
`k <= 1`, or `N <= k`), it selects the `k` stored indices with the highest
relevance scores, breaking ties by original insertion order with the
**later**-inserted record winning (descending reversal of a stable ascending
argsort), and returns the surviving results in descending score order.  The
original claim said the earlier-inserted record wins ties; see the
counterexample. -/
theorem retrieve_non_mmr_top_k (q : List K) (emb : List (List K))
    (meta : List ChunkRecord) (k : Int) (ms : K) (um : Bool)
    (h : ¬(um = true ∧ 1 < k ∧ k < (emb.length : Int))) :
    selectIndices q emb k um = pyTake (argsortAsc (relScores q emb)).reverse k ∧
    List.Perm (argsortAsc (relScores q emb)).reverse (List.range emb.length) ∧
    (argsortAsc (relScores q emb)).reverse.Pairwise (fun i j =>
      sGet (relScores q emb) j < sGet (relScores q emb) i ∨
      (sGet (relScores q emb) j = sGet (relScores q emb) i ∧ j < i)) ∧
    (retrieveFrom q emb meta k ms um).Pairwise (fun a b => b.score ≤ a.score) := by
  have hsel : selectIndices q emb k um = pyTake (argsortAsc (relScores q emb)).reverse k := by
    rw [selectIndices, if_neg h]
  refine ⟨hsel, ?_, argsortAsc_reverse_sorted _, ?_⟩
  · have := (argsortAsc_perm (relScores q emb)).symm.trans (List.reverse_perm _).symm
    have hlen : (relScores q emb).length = emb.length := by simp [relScores]
    rw [hlen] at this
    exact this.symm
  · have hdesc : (argsortAsc (relScores q emb)).reverse.Pairwise
        (fun i j => sGet (relScores q emb) j ≤ sGet (relScores q emb) i) :=
      (argsortAsc_reverse_sorted _).imp (by
        rintro i j (hlt | ⟨heq, _⟩)
        · exact le_of_lt hlt
        · exact le_of_eq heq)
    have htake : (pyTake (argsortAsc (relScores q emb)).reverse k).Pairwise
        (fun i j => sGet (relScores q emb) j ≤ sGet (relScores q emb) i) := by
      rw [pyTake]
      split <;> exact List.Pairwise.sublist (List.take_sublist _ _) hdesc
    rw [retrieveFrom, hsel, scoreFilter]
    refine pairwise_filterMap_of_pairwise _ htake ?_
    intro a b x y hab hfa hfb
    by_cases h1 : clip1 (sGet (relScores q emb) a) < ms
    · rw [if_pos h1] at hfa; cases hfa
    · by_cases h2 : clip1 (sGet (relScores q emb) b) < ms
      · rw [if_pos h2] at hfb; cases hfb
      · rw [if_neg h1] at hfa
        rw [if_neg h2] at hfb
        cases hfa; cases hfb
        exact clip1_mono hab

/-- C4 (counterexample to the claim as stated): two stored records with equal
relevance scores, `k = 1`, `use_mmr = false`.  The claim says ties break
toward the earlier-inserted record, so the result should be record "A"; the
code's `np.argsort(sims)[::-1]` puts the later index first among ties and
returns record "B". -/
theorem retrieve_non_mmr_tie_cex :
    (retrieveFrom (K := ℚ) [1] [[1], [1]] [recA, recB] 1 (1/4) false).map
        (fun r => r.record.id) = ["B"] ∧ ("B" : String) ≠ "A" := by
  constructor
  · have h1 : idxLe ([1, 1] : List ℚ) 0 1 := by
      simp [idxLe, sGet]
    simp [retrieveFrom, selectIndices, pyTake, scoreFilter, argsortAsc, insIdx,
      relScores, dot, sGet, clip1, recA, recB, h1, List.range_succ]
    norm_num [List.filterMap_cons, recB]
  · decide

/-- C4 witness: the amended theorem applied to a concrete two-record store. -/
theorem retrieve_non_mmr_top_k_witness :
    ¬((false = true) ∧ 1 < (2 : Int) ∧ (2 : Int) < (([[1], [3]] : List (List ℚ)).length : Int)) ∧
    (retrieveFrom (K := ℚ) [1] [[1], [3]] [recA, recB] 2 0 false).Pairwise
      (fun a b => b.score ≤ a.score) := by
  refine ⟨by decide, ?_⟩
  exact (retrieve_non_mmr_top_k (K := ℚ) [1] [[1], [3]] [recA, recB] 2 0 false (by decide)).2.2.2

/-- C10: `retrieve` does not validate `k`.  With `k = 0` the result is empty
(Python's `[:0]` slice).  With negative `k` such that `N + k >= 1`, the MMR
condition `k > 1` fails, and Python's `[:k]` slice keeps the first `N + k`
entries of the descending argsort, so retrieve returns the `N + k`
highest-scoring records (subject to the `min_score` filter) — not zero
results and not an error. -/
theorem retrieve_k_not_validated (q : List K) (emb : List (List K))
    (meta : List ChunkRecord) (ms : K) (um : Bool) :
    retrieveFrom q emb meta 0 ms um = [] ∧
    (∀ k : Int, k < 0 →
      selectIndices q emb k um =
        (argsortAsc (relScores q emb)).reverse.take ((emb.length : Int) + k).toNat ∧
      (1 ≤ (emb.length : Int) + k →
        (selectIndices q emb k um).length = ((emb.length : Int) + k).toNat)) ∧
    List.Perm (argsortAsc (relScores q emb)).reverse (List.range emb.length) ∧
    (argsortAsc (relScores q emb)).reverse.Pairwise (fun i j =>
      sGet (relScores q emb) j < sGet (relScores q emb) i ∨
      (sGet (relScores q emb) j = sGet (relScores q emb) i ∧ j < i)) := by
  refine ⟨?_, ?_, ?_, argsortAsc_reverse_sorted _⟩
  · have hc : ¬(um = true ∧ 1 < (0 : Int) ∧ (0 : Int) < (emb.length : Int)) := by
      rintro ⟨-, h, -⟩; norm_num at h
    rw [retrieveFrom, selectIndices, if_neg hc, pyTake]
    norm_num
    rfl
  · intro k hk
    have hc : ¬(um = true ∧ 1 < k ∧ k < (emb.length : Int)) := by
      rintro ⟨-, h, -⟩; omega
    have hlt : ¬(0 ≤ k) := by omega
    have hlen : (argsortAsc (relScores q emb)).reverse.length = emb.length := by
      rw [List.length_reverse, argsortAsc_length]
      simp [relScores]
    constructor
    · rw [selectIndices, if_neg hc, pyTake, if_neg hlt, hlen]
    · intro hge
      rw [selectIndices, if_neg hc, pyTake, if_neg hlt, hlen, List.length_take, hlen]
      omega
  · have := (argsortAsc_perm (relScores q emb)).symm.trans (List.reverse_perm _).symm
    have hlen : (relScores q emb).length = emb.length := by simp [relScores]
    rw [hlen] at this
    exact this.symm

/-- C10 witness: a two-record store; `k = -1` selects exactly `2 + (-1) = 1`
index, and `k = 0` returns no results. -/
theorem retrieve_k_not_validated_witness :
    retrieveFrom (K := ℚ) [1] [[1], [2]] [recA, recB] 0 0 true = [] ∧
    ((-1 : Int) < 0) ∧ (1 ≤ (([[1], [2]] : List (List ℚ)).length : Int) + (-1)) ∧
    (selectIndices (K := ℚ) [1] [[1], [2]] (-1) true).length =
      ((([[1], [2]] : List (List ℚ)).length : Int) + (-1)).toNat := by
  refine ⟨(retrieve_k_not_validated (K := ℚ) [1] [[1], [2]] [recA, recB] 0 true).1,
    by decide, by decide, ?_⟩
  exact ((retrieve_k_not_validated (K := ℚ) [1] [[1], [2]] [recA, recB] 0 true).2.1
    (-1) (by decide)).2 (by decide)

theorem npArgmaxAux_spec (xs : List K) :
    ∀ (i b : Nat) (v : K),
    ((npArgmaxAux xs i (b, v) = (b, v)) ∨
      ∃ j, j < xs.length ∧ (npArgmaxAux xs i (b, v)).1 = i + j ∧
        xs.getD j 0 = (npArgmaxAux xs i (b, v)).2) ∧
    v ≤ (npArgmaxAux xs i (b, v)).2 ∧ ∀ y ∈ xs, y ≤ (npArgmaxAux xs i (b, v)).2 := by
  induction xs with
  | nil =>
    intro i b v
    exact ⟨Or.inl rfl, le_rfl, by simp⟩
  | cons x xs ih =>
    intro i b v
    rw [npArgmaxAux]
    by_cases hvx : v < x
    · rw [if_pos hvx]
      obtain ⟨hloc, hub, hall⟩ := ih (i + 1) i x
      refine ⟨?_, le_of_lt (lt_of_lt_of_le hvx hub), ?_⟩
      · rcases hloc with heq | ⟨j, hj, h1, h2⟩
        · refine Or.inr ⟨0, by simp, ?_, ?_⟩
          · rw [heq]; simp
          · rw [heq]; simp
        · refine Or.inr ⟨j + 1, by simp only [List.length_cons]; omega, by rw [h1]; omega,
            by simpa using h2⟩
      · intro y hy
        rcases List.mem_cons.mp hy with rfl | hy
        · exact hub
        · exact hall y hy
    · rw [if_neg hvx]
      obtain ⟨hloc, hub, hall⟩ := ih (i + 1) b v
      refine ⟨?_, hub, ?_⟩
      · rcases hloc with heq | ⟨j, hj, h1, h2⟩
        · exact Or.inl heq
        · refine Or.inr ⟨j + 1, by simp only [List.length_cons]; omega, by rw [h1]; omega,
            by simpa using h2⟩
      · intro y hy
        rcases List.mem_cons.mp hy with rfl | hy
        · exact le_trans (le_of_not_lt hvx) hub
        · exact hall y hy

theorem npArgmax_spec (l : List K) (h : l ≠ []) :
    npArgmax l < l.length ∧ ∀ i, i < l.length → sGet l i ≤ sGet l (npArgmax l) := by
  cases l with
  | nil => exact absurd rfl h
  | cons x xs =>
    obtain ⟨hloc, hub, hall⟩ := npArgmaxAux_spec xs 1 0 x
    have hval : sGet (x :: xs) (npArgmax (x :: xs)) = (npArgmaxAux xs 1 (0, x)).2 := by
      rcases hloc with heq | ⟨j, hj, h1, h2⟩
      · rw [npArgmax, heq]
        simp [sGet]
      · have h1' : (npArgmaxAux xs 1 (0, x)).1 = j + 1 := by omega
        rw [npArgmax, sGet, h1', List.getD_cons_succ]
        exact h2
    constructor
    · rcases hloc with heq | ⟨j, hj, h1, h2⟩
      · rw [npArgmax, heq]
        simp
      · rw [npArgmax, h1]
        simp
        omega
    · intro i hi
      rw [hval]
      cases i with
      | zero => simpa [sGet] using hub
      | succ j =>
        have hj : j < xs.length := by simpa using hi
        have : xs.getD j 0 ∈ xs := by
          rw [List.getD_eq_getElem xs 0 hj]
          exact List.getElem_mem hj
        simpa [sGet] using hall _ this

theorem chooseArgmax_spec (f : Nat → K) (cands : List Nat) (h : cands ≠ []) :
    cands.getD (npArgmax (cands.map f)) 0 ∈ cands ∧
    ∀ c ∈ cands, f c ≤ f (cands.getD (npArgmax (cands.map f)) 0) := by
  have hmapne : cands.map f ≠ [] := by simpa using h
  obtain ⟨hlt, hmax⟩ := npArgmax_spec (cands.map f) hmapne
  have hlt' : npArgmax (cands.map f) < cands.length := by simpa using hlt
  have hchosen : cands.getD (npArgmax (cands.map f)) 0 = cands[npArgmax (cands.map f)] :=
    List.getD_eq_getElem cands 0 hlt'
  have hfval : f (cands.getD (npArgmax (cands.map f)) 0) =
      sGet (cands.map f) (npArgmax (cands.map f)) := by
    rw [hchosen, sGet, List.getD_eq_getElem _ _ hlt, List.getElem_map]
  refine ⟨?_, ?_⟩
  · rw [hchosen]
    exact List.getElem_mem hlt'
  · intro c hc
    obtain ⟨j, hj, rfl⟩ := List.getElem_of_mem hc
    have : f cands[j] = sGet (cands.map f) j := by
      rw [sGet, List.getD_eq_getElem _ _ (by simpa using hj), List.getElem_map]
    rw [this, hfval]
    exact hmax j (by simpa using hj)

theorem mmrLoop_spec (lam : K) (rel : List K) (dSim : Nat → Nat → K) (N : Nat)
    (hrelN : rel.length = N) :
    ∀ (n : Nat) (sel cands : List Nat),
      (∀ c, c ∈ cands ↔ (c < N ∧ c ∉ sel)) → cands.Nodup → sel.Nodup →
      n ≤ cands.length →
    ∃ ext, mmrLoop lam rel dSim n sel cands = sel ++ ext ∧
      ext.length = n ∧ (sel ++ ext).Nodup ∧ (∀ p ∈ ext, p < N) ∧
      (∀ i, sel.length ≤ i → i < sel.length + n →
        ((i = 0 → ∀ c, c < N → sGet rel c ≤ sGet rel ((sel ++ ext).getD 0 0)) ∧
         (0 < i →
           (sel ++ ext).getD i 0 ∉ (sel ++ ext).take i ∧
           ∀ c, c < N → c ∉ (sel ++ ext).take i →
             mmrScore lam rel dSim ((sel ++ ext).take i) c ≤
             mmrScore lam rel dSim ((sel ++ ext).take i) ((sel ++ ext).getD i 0)))) := by
  intro n
  induction n with
  | zero =>
    intro sel cands hmem hcnd hseln hn
    refine ⟨[], by rw [mmrLoop]; simp, rfl, by simpa using hseln, by simp, ?_⟩
    intro i h1 h2
    omega
  | succ n ih =>
    intro sel cands hmem hcnd hseln hn
    have hcne : cands ≠ [] := by
      intro hc
      rw [hc] at hn
      simp at hn
    have hNpos : 0 < N := by
      obtain ⟨c, hc⟩ := List.exists_mem_of_ne_nil cands hcne
      exact Nat.lt_of_le_of_lt (Nat.zero_le c) ((hmem c).mp hc).1
    by_cases hsel : sel = []
    · subst hsel
      have hrelne : rel ≠ [] := by
        intro hr
        rw [hr] at hrelN
        simp at hrelN
        omega
      obtain ⟨hidxlt, hidxmax⟩ := npArgmax_spec rel hrelne
      set idx := npArgmax rel with hidx
      have hidxN : idx < N := hrelN ▸ hidxlt
      have hidxc : idx ∈ cands := (hmem idx).mpr ⟨hidxN, by simp⟩
      have hmem' : ∀ c, c ∈ cands.erase idx ↔ (c < N ∧ c ∉ [idx]) := by
        intro c
        rw [hcnd.mem_erase_iff, hmem c]
        simp
        tauto
      have hlen' : n ≤ (cands.erase idx).length := by
        rw [List.length_erase_of_mem hidxc]
        omega
      obtain ⟨ext', heq', hlen'', hnd', hbd', hstep'⟩ :=
        ih [idx] (cands.erase idx) hmem' (hcnd.erase idx) (List.nodup_singleton idx) hlen'
      refine ⟨idx :: ext', ?_, by simpa using hlen'', by simpa using hnd',
        ?_, ?_⟩
      · rw [mmrLoop, if_pos rfl]
        simpa using heq'
      · intro p hp
        rcases List.mem_cons.mp hp with rfl | hp
        · exact hidxN
        · exact hbd' p hp
      · intro i h1 h2
        rcases Nat.eq_zero_or_pos i with rfl | hipos
        · refine ⟨?_, by omega⟩
          intro _ c hc
          simpa [sGet] using hidxmax c (by omega)
        · have hi1 : 1 ≤ i := hipos
          have := hstep' i (by simpa using hi1)
            (by simp only [List.length_singleton]
                simp only [List.length_nil, Nat.zero_add] at h2
                omega)
          refine ⟨by omega, ?_⟩
          intro _
          simpa using this.2 hipos
    · set f := mmrScore lam rel dSim sel with hf
      obtain ⟨hchmem, hchmax⟩ := chooseArgmax_spec f cands hcne
      set idx := cands.getD (npArgmax (cands.map f)) 0 with hidxdef
      have hidxN : idx < N := ((hmem idx).mp hchmem).1
      have hidxsel : idx ∉ sel := ((hmem idx).mp hchmem).2
      have hmem' : ∀ c, c ∈ cands.erase idx ↔ (c < N ∧ c ∉ sel ++ [idx]) := by
        intro c
        rw [hcnd.mem_erase_iff, hmem c]
        simp
        tauto
      have hlen' : n ≤ (cands.erase idx).length := by
        rw [List.length_erase_of_mem hchmem]
        omega
      have hseln' : (sel ++ [idx]).Nodup := by
        rw [List.nodup_append]
        exact ⟨hseln, List.nodup_singleton idx, by simpa using hidxsel⟩
      obtain ⟨ext', heq', hlen'', hnd', hbd', hstep'⟩ :=
        ih (sel ++ [idx]) (cands.erase idx) hmem' (hcnd.erase idx) hseln' hlen'
      have hassoc : (sel ++ [idx]) ++ ext' = sel ++ (idx :: ext') := by simp
      refine ⟨idx :: ext', ?_, by simpa using hlen'', by rw [← hassoc]; exact hnd', ?_, ?_⟩
      · rw [mmrLoop, if_neg hsel, if_neg hcne]
        rw [heq', hassoc]
      · intro p hp
        rcases List.mem_cons.mp hp with rfl | hp
        · exact hidxN
        · exact hbd' p hp
      · intro i h1 h2
        have hselpos : 0 < sel.length := List.length_pos.mpr hsel
        rcases Nat.eq_or_lt_of_le h1 with rfl | hgt
        · -- position sel.length: the pick we just made
          refine ⟨by omega, ?_⟩
          intro _
          have hgetd : (sel ++ idx :: ext').getD sel.length 0 = idx := by
            rw [List.getD_append_right _ _ _ _ le_rfl]
            simp
          have htake : (sel ++ idx :: ext').take sel.length = sel :=
            List.take_left' rfl
          rw [hgetd, htake]
          refine ⟨hidxsel, ?_⟩
          intro c hcN hcsel
          exact hchmax c ((hmem c).mpr ⟨hcN, hcsel⟩)
        · -- positions covered by the recursive call
          have := hstep' i (by simp; omega) (by simp at hlen'' ⊢; omega)
          rw [hassoc] at this
          refine ⟨by omega, ?_⟩
          intro _
          exact this.2 (by omega)

theorem mmr_spec (q : List K) (docs : List (List K)) (topK : Nat) (lam : K) :
    (mmr q docs topK lam).length = min topK docs.length ∧
    (mmr q docs topK lam).Nodup ∧
    (∀ p ∈ mmr q docs topK lam, p < docs.length) ∧
    (0 < min topK docs.length →
      ∀ c, c < docs.length →
        sGet (relScores q docs) c ≤ sGet (relScores q docs) ((mmr q docs topK lam).getD 0 0)) ∧
    (∀ i, 0 < i → i < (mmr q docs topK lam).length →
      (mmr q docs topK lam).getD i 0 ∉ (mmr q docs topK lam).take i ∧
      ∀ c, c < docs.length → c ∉ (mmr q docs topK lam).take i →
        mmrScore lam (relScores q docs) (docSimF docs) ((mmr q docs topK lam).take i) c ≤
        mmrScore lam (relScores q docs) (docSimF docs) ((mmr q docs topK lam).take i)
          ((mmr q docs topK lam).getD i 0)) := by
  by_cases hN : docs.length = 0
  · rw [mmr, if_pos hN]
    refine ⟨by simp [hN], List.nodup_nil, by simp, by rw [hN]; simp, by simp⟩
  · have hrelN : (relScores q docs).length = docs.length := by simp [relScores]
    have hmem : ∀ c, c ∈ List.range docs.length ↔ (c < docs.length ∧ c ∉ ([] : List Nat)) := by
      intro c
      simp [List.mem_range]
    obtain ⟨ext, heq, hlen, hnd, hbd, hstep⟩ :=
      mmrLoop_spec lam (relScores q docs) (docSimF docs) docs.length hrelN
        (min topK docs.length) [] (List.range docs.length) hmem
        (List.nodup_range _) List.nodup_nil (by rw [List.length_range]; omega)
    have hmmr : mmr q docs topK lam = ext := by
      rw [mmr, if_neg hN, heq]
      simp
    rw [hmmr]
    simp only [List.nil_append] at heq hnd hstep
    refine ⟨hlen, hnd, hbd, ?_, ?_⟩
    · intro hpos c hc
      have := (hstep 0 (by simp) (by simpa using hpos)).1 rfl
      exact this c hc
    · intro i hipos hilt
      rw [hlen] at hilt
      exact (hstep i (by simp)
        (by simp only [List.length_nil, Nat.zero_add]; exact hilt)).2 hipos

/-- C7: `retrieve` runs MMR exactly when `use_mmr` is true and `k > 1` and the
store holds `N > k` records (first two conjuncts), and the MMR selection is
greedy with `λ = 0.7`: it makes `min k N` distinct picks among the stored
indices; the first pick maximizes relevance `rel`; each subsequent pick, drawn
from the candidates not yet selected, maximizes
`0.7 * rel[c] − 0.3 * max_{j ∈ selected} doc_sim[c, j]` (the `mmrScore`); and
it stops after `k` picks or when the candidates are exhausted
(`length = min k N`). -/
theorem retrieve_mmr_exactly_and_greedy (q : List K) (emb : List (List K))
    (meta : List ChunkRecord) (k : Int) (ms : K) (um : Bool) :
    ((um = true ∧ 1 < k ∧ k < (emb.length : Int)) →
      selectIndices q emb k um = mmr q emb k.toNat (7 / 10) ∧
      retrieveFrom q emb meta k ms um =
        scoreFilter (relScores q emb) meta ms (mmr q emb k.toNat (7 / 10))) ∧
    (¬(um = true ∧ 1 < k ∧ k < (emb.length : Int)) →
      selectIndices q emb k um = pyTake (argsortAsc (relScores q emb)).reverse k) ∧
    (mmr q emb k.toNat (7 / 10)).length = min k.toNat emb.length ∧
    (mmr q emb k.toNat (7 / 10)).Nodup ∧
    (∀ p ∈ mmr q emb k.toNat (7 / 10), p < emb.length) ∧
    (0 < min k.toNat emb.length →
      ∀ c, c < emb.length →
        sGet (relScores q emb) c ≤
          sGet (relScores q emb) ((mmr q emb k.toNat (7 / 10)).getD 0 0)) ∧
    (∀ i, 0 < i → i < (mmr q emb k.toNat (7 / 10)).length →
      (mmr q emb k.toNat (7 / 10)).getD i 0 ∉ (mmr q emb k.toNat (7 / 10)).take i ∧
      ∀ c, c < emb.length → c ∉ (mmr q emb k.toNat (7 / 10)).take i →
        mmrScore (7 / 10) (relScores q emb) (docSimF emb)
            ((mmr q emb k.toNat (7 / 10)).take i) c ≤
        mmrScore (7 / 10) (relScores q emb) (docSimF emb)
            ((mmr q emb k.toNat (7 / 10)).take i)
            ((mmr q emb k.toNat (7 / 10)).getD i 0)) := by
  obtain ⟨h1, h2, h3, h4, h5⟩ := mmr_spec q emb k.toNat (7 / 10 : K)
  refine ⟨?_, ?_, h1, h2, h3, h4, h5⟩
  · intro hc
    rw [selectIndices, if_pos hc, retrieveFrom, selectIndices, if_pos hc]
    exact ⟨rfl, rfl⟩
  · intro hc
    rw [selectIndices, if_neg hc]

/-- C7 witness: the theorem applied to a concrete three-document store with
`k = 2`, discharging every hypothesis (the MMR-condition, the index bounds,
and the remaining-candidate conditions — the latter at the second pick
itself). -/
theorem retrieve_mmr_exactly_and_greedy_witness :
    ((true = true ∧ 1 < (2 : Int) ∧ (2 : Int) < ((embW.length : Nat) : Int)) ∧
      selectIndices [1, 0] embW 2 true = mmr [1, 0] embW 2 (7 / 10)) ∧
    (mmr [1, 0] embW 2 (7 / 10)).length = 2 ∧
    (0 < min (2 : Int).toNat embW.length ∧ 1 < embW.length ∧
      sGet (relScores [1, 0] embW) 1 ≤
        sGet (relScores [1, 0] embW) ((mmr [1, 0] embW 2 (7 / 10)).getD 0 0)) ∧
    ((0 : Nat) < 1 ∧ 1 < (mmr [1, 0] embW 2 (7 / 10)).length ∧
      (mmr [1, 0] embW 2 (7 / 10)).getD 1 0 ∉ (mmr [1, 0] embW 2 (7 / 10)).take 1 ∧
      mmrScore (7 / 10) (relScores [1, 0] embW) (docSimF embW)
          ((mmr [1, 0] embW 2 (7 / 10)).take 1) ((mmr [1, 0] embW 2 (7 / 10)).getD 1 0) ≤
      mmrScore (7 / 10) (relScores [1, 0] embW) (docSimF embW)
          ((mmr [1, 0] embW 2 (7 / 10)).take 1) ((mmr [1, 0] embW 2 (7 / 10)).getD 1 0)) := by
  have T := retrieve_mmr_exactly_and_greedy (K := ℚ) [1, 0] embW [] 2 0 true
  have hcond : (true = true ∧ 1 < (2 : Int) ∧ (2 : Int) < ((embW.length : Nat) : Int)) := by
    refine ⟨rfl, by norm_num, ?_⟩
    norm_num [embW]
  have hksel : Int.toNat 2 = 2 := rfl
  have hlen2 : (mmr (K := ℚ) [1, 0] embW 2 (7 / 10)).length = 2 := by
    have := T.2.2.1
    rw [hksel] at this
    rw [this]
    norm_num [embW]
  have h1lt : 1 < (mmr (K := ℚ) [1, 0] embW 2 (7 / 10)).length := by
    rw [hlen2]
    norm_num
  have hmemmmr : (mmr (K := ℚ) [1, 0] embW 2 (7 / 10)).getD 1 0 ∈
      mmr (K := ℚ) [1, 0] embW 2 (7 / 10) := by
    rw [List.getD_eq_getElem _ _ h1lt]
    exact List.getElem_mem h1lt
  have hc3 : (mmr (K := ℚ) [1, 0] embW 2 (7 / 10)).getD 1 0 < embW.length := by
    have := T.2.2.2.2.1
    rw [hksel] at this
    exact this _ hmemmmr
  have hstep := T.2.2.2.2.2.2 1 (by norm_num) (by rw [hksel]; exact h1lt)
  rw [hksel] at hstep
  refine ⟨⟨hcond, ?_⟩, hlen2, ⟨?_, ?_, ?_⟩, ⟨by norm_num, h1lt, hstep.1, ?_⟩⟩
  · have := T.1 hcond
    rw [hksel] at this
    exact this.1
  · rw [hksel]
    norm_num [embW]
  · norm_num [embW]
  · have := T.2.2.2.2.2.1
    rw [hksel] at this
    refine this ?_ 1 ?_
    · norm_num [embW]
    · norm_num [embW]
  · exact hstep.2 _ hc3 hstep.1

theorem l2norm_nonneg (v : List ℝ) : 0 ≤ l2norm v := Real.sqrt_nonneg _

theorem sum_sq_nonneg (v : List ℝ) : 0 ≤ (v.map fun x => x ^ 2).sum := by
  apply List.sum_nonneg
  intro x hx
  rcases List.mem_map.mp hx with ⟨y, -, rfl⟩
  positivity

theorem l2norm_map_div (v : List ℝ) (c : ℝ) (hc : 0 < c) :
    l2norm (v.map fun x => x / c) = l2norm v / c := by
  rw [l2norm, List.map_map]
  have h1 : ((fun x => x ^ 2) ∘ fun x => x / c) = fun x => x ^ 2 * (1 / c ^ 2) := by
    funext x
    field_simp
  rw [h1, List.sum_map_mul_right, mul_one_div,
    Real.sqrt_div (sum_sq_nonneg v), Real.sqrt_sq hc.le, l2norm]

/-- The exact norm of a `_normalize`d row. -/
theorem l2norm_normalizeRow (v : List ℝ) :
    l2norm (normalizeRow v) = l2norm v / (l2norm v + 1 / 10 ^ 12) := by
  have hc : (0 : ℝ) < l2norm v + 1 / 10 ^ 12 := by
    have := l2norm_nonneg v
    positivity
  rw [normalizeRow, l2norm_map_div v _ hc]

/-- C6 (amended): every row stored by `_encode_texts` is the provider's raw
vector `v` rescaled to `v / (‖v‖ + 1e-12)`; its exact norm is
`‖v‖ / (‖v‖ + 1e-12)`, which lies within `1e-9` of 1 whenever `‖v‖ ≥ 1e-3`
(true of every real sentence-transformer embedding), but equals 0 — not ≈ 1 —
when the provider returns the zero vector (see the counterexample). -/
theorem encode_texts_rows_near_unit (P : List String → List (List ℝ)) (texts : List String)
    (M : NpMatrix ℝ) (henc : encodeTexts P texts = some M) :
    ∀ r ∈ M.rows, ∃ v ∈ P texts, r = normalizeRow v ∧
      l2norm r = l2norm v / (l2norm v + 1 / 10 ^ 12) ∧
      (1 / 1000 ≤ l2norm v → 1 - 1 / 1000000000 ≤ l2norm r ∧ l2norm r ≤ 1) := by
  have hrows : M.rows = normalize (P texts) := by
    unfold encodeTexts at henc
    split at henc
    · cases henc
    · rename_i r0 rest heq
      split at henc
      · cases henc
        rw [heq]
      · cases henc
  intro r hr
  rw [hrows, normalize] at hr
  obtain ⟨v, hv, rfl⟩ := List.mem_map.mp hr
  refine ⟨v, hv, rfl, l2norm_normalizeRow v, ?_⟩
  intro hge
  have hn0 : 0 ≤ l2norm v := l2norm_nonneg v
  have hpos : (0 : ℝ) < l2norm v + 1 / 10 ^ 12 := by positivity
  rw [l2norm_normalizeRow v]
  constructor
  · rw [le_div_iff₀ hpos]
    linarith
  · rw [div_le_one hpos]
    linarith

theorem l2norm_34 : l2norm [(3 : ℝ), 4] = 5 := by
  rw [l2norm]
  norm_num
  rw [show (25 : ℝ) = 5 ^ 2 by norm_num, Real.sqrt_sq (by norm_num)]

/-- C6 witness: the amended theorem at the provider vector `(3, 4)`. -/
theorem encode_texts_rows_near_unit_witness :
    encodeTexts wP ["x"] = some wM ∧
    normalizeRow [(3 : ℝ), 4] ∈ wM.rows ∧
    1 / 1000 ≤ l2norm [(3 : ℝ), 4] ∧
    1 - 1 / 1000000000 ≤ l2norm (normalizeRow [(3 : ℝ), 4]) ∧
    l2norm (normalizeRow [(3 : ℝ), 4]) ≤ 1 := by
  have henc : encodeTexts wP ["x"] = some wM := by
    rw [encodeTexts, wP, wM]
    norm_num
  have hmem : normalizeRow [(3 : ℝ), 4] ∈ wM.rows := by
    rw [wM, normalize]
    simp
  have hge : 1 / 1000 ≤ l2norm [(3 : ℝ), 4] := by
    rw [l2norm_34]
    norm_num
  obtain ⟨v, hv, -, -, hb⟩ := encode_texts_rows_near_unit wP ["x"] wM henc _ hmem
  have hv34 : v = [(3 : ℝ), 4] := by
    simpa [wP] using hv
  subst hv34
  exact ⟨henc, hmem, hge, (hb hge).1, (hb hge).2⟩

theorem saveStoreChecked_counts (emb : NpMatrix ℝ) (meta : List ChunkRecord) (dim : Nat)
    (fs' : StoreFiles ℝ) (h : saveStoreChecked emb meta dim = some fs') :
    storedRows fs' = storedMeta fs' ∧ storedMeta fs' = manifestCount fs' := by
  rw [saveStoreChecked] at h
  split at h
  · rename_i heq
    cases h
    exact ⟨heq, heq.symm⟩
  · cases h

/-- C3: after every successful `ingest_documents` or `clear_store` (from the
empty initial directory), the persisted matrix row count, the persisted
record-list length, and the manifest's `count` field all agree, the cleared
and initial states counting as zero of each. -/
theorem ingest_clear_count_invariant (fs : StoreFiles ℝ) (h : Reachable fs) :
    storedRows fs = storedMeta fs ∧ storedMeta fs = manifestCount fs := by
  induction h with
  | init => exact ⟨rfl, rfl⟩
  | clear_step _ _ _ => exact ⟨rfl, rfl⟩
  | ingest_step P dim docs chunk fuel fs fs' hr hin ih =>
    rw [ingest] at hin
    split at hin
    · cases hin
      exact ih
    · split at hin
      · exact Option.noConfusion hin
      · split at hin
        · cases hin
          exact ih
        · split at hin
          · exact Option.noConfusion hin
          · split at hin
            · exact saveStoreChecked_counts _ _ _ _ hin
            · exact saveStoreChecked_counts _ _ _ _ hin

/-- C3 witness: the invariant at a concrete reachable state (the initial
empty directory), all three counts being 0. -/
theorem ingest_clear_count_invariant_witness :
    storedRows (emptyFs ℝ) = storedMeta (emptyFs ℝ) ∧
    storedMeta (emptyFs ℝ) = manifestCount (emptyFs ℝ) :=
  ingest_clear_count_invariant (emptyFs ℝ) Reachable.init

/-- C8: a query that is empty or strips to whitespace makes `retrieve` return
the empty list immediately — no error, no read of the persisted store, no call
to the embedding provider — for every store state, `k`, `min_score` and
`use_mmr`. -/
theorem retrieve_empty_query (query : String) (h : pyStripStr query = [])
    (P : List String → List (List ℝ)) (dim : Nat) (fs : StoreFiles ℝ)
    (k : Int) (ms : ℝ) (um : Bool) :
    retrieve P dim fs query k ms um = ⟨[], false, false⟩ := by
  rw [retrieve, if_pos h]

/-- C8 witness: the theorem at the whitespace-only query `"  "`. -/
theorem retrieve_empty_query_witness :
    pyStripStr "  " = [] ∧
    retrieve (fun _ => [[1]]) 384 (emptyFs ℝ) "  " 3 (1 / 4) true = ⟨[], false, false⟩ :=
  ⟨by decide, retrieve_empty_query "  " (by decide) _ 384 (emptyFs ℝ) 3 (1 / 4) true⟩

/-- C9: `clear_store` is idempotent — a second call is a no-op on an already
empty directory (and raises nothing, every unlink being guarded by
`exists()`), both calls leaving the empty store — and after a clear every
`retrieve`, on every query and parameters, returns the empty result list. -/
theorem clear_store_idempotent (fs : StoreFiles ℝ) (P : List String → List (List ℝ))
    (dim : Nat) (query : String) (k : Int) (ms : ℝ) (um : Bool) :
    clearStore (clearStore fs) = clearStore fs ∧
    clearStore fs = emptyFs ℝ ∧
    (retrieve P dim (clearStore fs) query k ms um).results = [] := by
  refine ⟨rfl, rfl, ?_⟩
  rw [retrieve]
  by_cases h : pyStripStr query = []
  · rw [if_pos h]
  · rw [if_neg h]
    simp [clearStore, emptyFs]

/-- C6 (counterexample to the claim as stated): the claim asserts that after
every successful ingest every stored row has L2 norm ≈ 1 "for every batch of
vectors the embedding provider may return (including, e.g., a zero vector)".
Ingesting one document whose provider vector is `(0, 0)` succeeds and stores
the row `(0, 0)` — `_normalize`'s division-by-zero guard maps the zero vector
to itself — whose L2 norm is 0, not within any reasonable tolerance of 1. -/
theorem ingest_zero_vector_row_cex :
    (ingest zeroP 2 [docX] false 1 (emptyFs ℝ)).map storedRowsList =
      some [[(0 : ℝ), 0]] ∧
    l2norm [(0 : ℝ), 0] = 0 ∧
    ¬(1 - 1 / 1000000000 ≤ l2norm [(0 : ℝ), 0]) := by
  have hl0 : l2norm [(0 : ℝ), 0] = 0 := by
    rw [l2norm]
    norm_num
  refine ⟨?_, hl0, by rw [hl0]; norm_num⟩
  have he : ensureStoreShapes 2 (emptyFs ℝ) = (emptyMat ℝ 2, []) := rfl
  have hbc : buildCorpus 1 false 0 [docX] ([], []) =
      some (["x"], [⟨"kb", "kb", "t", "x", 0, none, none⟩]) := by decide
  have henc : encodeTexts zeroP ["x"] = some ⟨2, normalize [[0, 0]]⟩ := by
    rw [encodeTexts, zeroP]
    simp
  have hnorm : normalize [[(0 : ℝ), 0]] = [[0, 0]] := by
    simp [normalize, normalizeRow]
  rw [ingest, he]
  simp only [List.length_nil, emptyMat]
  rw [hbc]
  simp only [List.cons_ne_nil, if_false, reduceCtorEq]
  rw [henc]
  simp [saveStoreChecked, hnorm, storedRowsList]

end Rag
